import Mathlib

/-!
Shallow embedding of the Change Scheduler engine.

The embedding follows the Python sources:

* `sc3/utils/datetime_utils.py` — `parse_datetime` (strptime with format
  `"%Y-%m-%d %H:%M:%S"`, raising on malformed input) and the derived POSIX
  timestamp used as the priority-queue key.
* `sc3/scheduler/task_manager.py` — `TaskManager`: `add_task`, `remove_task`,
  `start` (initial-task ingestion), one iteration of `_scheduler_loop`, and one
  sweep cycle of `_status_checker_loop`.
* `sc3/core/storage.py` — `save_tasks` (snapshot of the dict values computed
  synchronously at call time; the file write happens in a detached thread).
* `sc3/services/scheduler.py`, `sc3/services/status_checker.py`,
  `sc3/api/app.py` — the second (`TaskScheduler`/`TaskStore`/`StatusChecker`)
  variant of the same engine.

Python dicts are modelled as insertion-ordered association lists,
`queue.PriorityQueue` as a multiset of `(timestamp, id)` pairs from which the
lexicographic minimum is popped (heapq tuple comparison), and wall-clock time as
an `Int` parameter.  Naive `datetime.timestamp()` is modelled as seconds since
the epoch of the parsed wall-clock fields; the fixed UTC-offset a real run would
add is a strictly monotone shift that every claim is invariant under, because
`now` is measured in the same units.

Outbound effects (Status Oracle calls, Executor dispatches, persistence
writes, pending-set removals) are recorded as an `Action` trace in program
order; each action carries the Boolean `lockHeld` stating whether the
`TaskManager.file_lock` mutual-exclusion domain is held at the point in the
source where that effect is triggered.  Exceptions are modelled with
`Except`/`Option`.
-/

namespace Sc3

/-- Task record: the dict built by the API layer / tests, with keys
`change_number`, `implementation_time`, `created_at`. -/
structure Task where
  change_number : String
  implementation_time : String
  created_at : String
deriving Repr, DecidableEq

/-! ### Python dict model (insertion-ordered association list) -/

/-- The `scheduled_tasks` dict (`id → task`). -/
abbrev Pending := List (String × Task)

/-- `dict.get(k)`. -/
def dictGet : Pending → String → Option Task
  | [], _ => none
  | kv :: p, k => if kv.1 = k then some kv.2 else dictGet p k

/-- `k in dict`. -/
def dictContains : Pending → String → Bool
  | [], _ => false
  | kv :: p, k => decide (kv.1 = k) || dictContains p k

/-- `del dict[k]` (key-based removal, order of the rest preserved). -/
def dictErase : Pending → String → Pending
  | [], _ => []
  | kv :: p, k => if kv.1 = k then dictErase p k else kv :: dictErase p k

/-- `dict[k] = v`: overwrite in place if the key exists, else append. -/
def dictInsert (p : Pending) (k : String) (v : Task) : Pending :=
  if dictContains p k then p.map (fun kv => if kv.1 = k then (k, v) else kv)
  else p ++ [(k, v)]

/-- `list(dict.values())`. -/
def dictValues (p : Pending) : List Task := p.map Prod.snd

/-- `list(dict.keys())`. -/
def dictKeys (p : Pending) : List String := p.map Prod.fst

/-! ### `parse_datetime` and the queue timestamp

`utils/datetime_utils.py` parses with `strptime(dt_str, "%Y-%m-%d %H:%M:%S")`:
exactly four digits of year, one or two digits for the other fields (with the
strptime range checks month 1–12, day 1–31, hour 0–23, minute/second 0–59),
literal `-`/`:` separators, a whitespace run between date and time, nothing
left over, and the day valid for the month (the `datetime` constructor
rejects e.g. Feb 30 and year 0).  On failure `parse_datetime` raises
`ValueError`, modelled as `none`. -/

/-- Digits of a numeral to its value. -/
def digitsToNat (cs : List Char) : Nat :=
  cs.foldl (fun n c => n * 10 + (c.toNat - 48)) 0

/-- Parse a 1–`maxLen` digit field whose value must lie in `[lo, hi]`. -/
def parseField (lo hi maxLen : Nat) (cs : List Char) : Option (Nat × List Char) :=
  let ds := cs.takeWhile Char.isDigit
  let rest := cs.dropWhile Char.isDigit
  if ds.length = 0 ∨ ds.length > maxLen then none
  else
    let v := digitsToNat ds
    if lo ≤ v ∧ v ≤ hi then some (v, rest) else none

/-- `%Y`: exactly four digits; year 0 is rejected by the datetime constructor. -/
def parseYear (cs : List Char) : Option (Nat × List Char) :=
  let ds := cs.takeWhile Char.isDigit
  let rest := cs.dropWhile Char.isDigit
  if ds.length = 4 ∧ 1 ≤ digitsToNat ds then some (digitsToNat ds, rest) else none

/-- Consume one expected literal character. -/
def expectChar (c : Char) : List Char → Option (List Char)
  | x :: rest => if x = c then some rest else none
  | [] => none

/-- Literal whitespace in a strptime format matches a nonempty whitespace run. -/
def expectSpaces : List Char → Option (List Char)
  | x :: rest => if x.isWhitespace then some (rest.dropWhile Char.isWhitespace) else none
  | [] => none

/-- Gregorian leap-year rule. -/
def isLeap (y : Nat) : Bool := decide (y % 4 = 0 ∧ (y % 100 ≠ 0 ∨ y % 400 = 0))

/-- Days in a month. -/
def daysInMonth (y m : Nat) : Nat :=
  if m = 2 then (if isLeap y then 29 else 28)
  else if m = 4 ∨ m = 6 ∨ m = 9 ∨ m = 11 then 30 else 31

/-- Days in the months of year `y` strictly before month `m`. -/
def cumDays (y m : Nat) : Nat :=
  (List.range (m - 1)).foldl (fun acc i => acc + daysInMonth y (i + 1)) 0

/-- Leap years in `[1, y]`. -/
def leapCount (y : Nat) : Nat := y / 4 - y / 100 + y / 400

/-- Day number of `y-m-d` counting from `0001-01-01` as day 0. -/
def rataDie (y m d : Nat) : Nat :=
  365 * (y - 1) + leapCount (y - 1) + cumDays y m + (d - 1)

/-- Day number of the POSIX epoch `1970-01-01`. -/
def epochDay : Nat := rataDie 1970 1 1

/-- Seconds since the epoch for the given wall-clock fields. -/
def timestampOf (y mo d h mi s : Nat) : Int :=
  ((rataDie y mo d : Int) - (epochDay : Int)) * 86400 + ((h * 3600 + mi * 60 + s : Nat) : Int)

/-- `parse_datetime`: the wall-clock fields, or `none` for a `ValueError`. -/
def parse_datetime (s : String) : Option (Nat × Nat × Nat × Nat × Nat × Nat) := do
  let (y, r1) ← parseYear s.toList
  let r2 ← expectChar (Char.ofNat 45) r1
  let (mo, r3) ← parseField 1 12 2 r2
  let r4 ← expectChar (Char.ofNat 45) r3
  let (d, r5) ← parseField 1 31 2 r4
  let r6 ← expectSpaces r5
  let (h, r7) ← parseField 0 23 2 r6
  let r8 ← expectChar (Char.ofNat 58) r7
  let (mi, r9) ← parseField 0 59 2 r8
  let r10 ← expectChar (Char.ofNat 58) r9
  let (sec, r11) ← parseField 0 59 2 r10
  if r11 = [] ∧ d ≤ daysInMonth y mo then some (y, mo, d, h, mi, sec) else none

/-- `parse_datetime(s).timestamp()`: the queue key for a due-time string. -/
def parseTimestamp (s : String) : Option Int :=
  (parse_datetime s).map (fun x => timestampOf x.1 x.2.1 x.2.2.1 x.2.2.2.1 x.2.2.2.2.1 x.2.2.2.2.2)

/-! ### Due-Time Queue (`queue.PriorityQueue` of `(timestamp, change_number)`) -/

/-- heapq tuple comparison: strict lexicographic order on `(timestamp, id)`. -/
def entryLt (a b : Int × String) : Prop :=
  a.1 < b.1 ∨ (a.1 = b.1 ∧ a.2 < b.2)

instance entryLtDecidable (a b : Int × String) : Decidable (entryLt a b) := by
  unfold entryLt; infer_instance

/-- Smaller of two queue entries (the first argument wins ties). -/
def minEntry (a b : Int × String) : Int × String := if entryLt b a then b else a

/-- The entry `PriorityQueue.queue[0]` / `get()` yields: the lexicographic
minimum by `(due_time, id)`. -/
def queueMin : List (Int × String) → Option (Int × String)
  | [] => none
  | e :: es => some (es.foldl minEntry e)

/-- Remove one occurrence of an entry (the pop of `get()`). -/
def eraseEntry : List (Int × String) → (Int × String) → List (Int × String)
  | [], _ => []
  | x :: q, e => if x = e then q else x :: eraseEntry q e

/-! ### Observable effects -/

/-- One outbound effect, in program order.  The Boolean records whether
`TaskManager.file_lock` is held at the source location that triggers it. -/
inductive Action where
  | oracleCheck (id : String) (lockHeld : Bool)
  | removePending (id : String) (lockHeld : Bool)
  | save (payload : List Task) (lockHeld : Bool)
  | dispatchExec (task : Task) (lockHeld : Bool)
deriving Repr, DecidableEq

/-- Whether the lock is held when the action is triggered. -/
def Action.lockFlag : Action → Bool
  | .oracleCheck _ l => l
  | .removePending _ l => l
  | .save _ l => l
  | .dispatchExec _ l => l

/-- Is this action a persistence write? -/
def isSave : Action → Bool
  | .save _ _ => true
  | _ => false

/-- Number of persistence writes in a trace. -/
def saveCount (as : List Action) : Nat := (as.filter isSave).length

/-- Is this action an Executor dispatch for the task with the given id? -/
def isDispatchFor (id : String) : Action → Bool
  | .dispatchExec t _ => decide (t.change_number = id)
  | _ => false

/-- Number of Executor dispatches for `id` in a trace. -/
def execCount (id : String) (as : List Action) : Nat :=
  (as.filter (isDispatchFor id)).length

/-- What one `_scheduler_loop` iteration did. -/
inductive SchedEvent where
  | slept
  | stale (t : Int) (id : String)
  | skipped (t : Int) (id : String)
  | executed (t : Int) (id : String) (task : Task)
deriving Repr, DecidableEq

/-- The key of the queue entry popped by the iteration, if any. -/
def SchedEvent.popKey : SchedEvent → Option Int
  | .slept => none
  | .stale t _ => some t
  | .skipped t _ => some t
  | .executed t _ _ => some t

/-- Does the event concern the given task id? -/
def SchedEvent.touches (id : String) : SchedEvent → Bool
  | .slept => false
  | .stale _ i => decide (i = id)
  | .skipped _ i => decide (i = id)
  | .executed _ i _ => decide (i = id)

/-- Keys of the queue entries popped across a run, in order. -/
def popKeys (evs : List SchedEvent) : List Int := evs.filterMap SchedEvent.popKey

/-- The `(popped key, id, task)` of each Executor dispatch, in order. -/
def execEvents (evs : List SchedEvent) : List (Int × String × Task) :=
  evs.filterMap fun ev =>
    match ev with
    | .executed t i task => some (t, i, task)
    | _ => none

/-! ### `core/storage.py` -/

/-- `save_tasks(tasks)`: the snapshot `list(tasks.values())` is computed
synchronously at call time; a detached daemon thread then writes exactly this
list.  The whole body is wrapped in `try/except`, so the function never raises
to its caller; its only observable is the captured payload. -/
def save_tasks (tasks : Pending) : List Task := dictValues tasks

/-! ### `scheduler/task_manager.py` — `TaskManager` -/

/-- The shared mutable state: `self.scheduled_tasks` and `self.task_queue`. -/
structure MgrState where
  scheduled_tasks : Pending
  task_queue : List (Int × String)
deriving Repr, DecidableEq

/-- `TaskManager.add_task`: parse the due time (raising on malformed input
before any mutation), then under the lock overwrite the dict entry and push a
fresh `(timestamp, id)` pair; after releasing the lock trigger `save_tasks`
and a detached initial status probe. -/
def add_task (st : MgrState) (task : Task) : MgrState × List Action × Except String Task :=
  match parseTimestamp task.implementation_time with
  | none =>
      (st, [], .error ("Invalid datetime format: " ++ task.implementation_time
        ++ ". Use YYYY-MM-DD HH:MM:SS"))
  | some timestamp =>
      let pending := dictInsert st.scheduled_tasks task.change_number task
      ({ scheduled_tasks := pending,
         task_queue := st.task_queue ++ [(timestamp, task.change_number)] },
       [Action.save (save_tasks pending) false,
        Action.oracleCheck task.change_number false],
       .ok task)

/-- `TaskManager.remove_task`: under the lock, return `False` if the id is
absent, else delete it; `save_tasks` is called after the lock is released. -/
def remove_task (st : MgrState) (change_number : String) : MgrState × List Action × Bool :=
  if dictContains st.scheduled_tasks change_number then
    ({ scheduled_tasks := dictErase st.scheduled_tasks change_number,
       task_queue := st.task_queue },
     [Action.removePending change_number true,
      Action.save (save_tasks (dictErase st.scheduled_tasks change_number)) false],
     true)
  else (st, [], false)

/-- `TaskManager.get_task`. -/
def get_task (st : MgrState) (change_number : String) : Option Task :=
  dictGet st.scheduled_tasks change_number

/-- `TaskManager.get_all_tasks`. -/
def get_all_tasks (st : MgrState) : List Task := dictValues st.scheduled_tasks

/-- `TaskManager.start(initial_tasks)`: the dict is installed wholesale; each
record is then pushed onto the queue, with a per-record `try/except` so a
record whose `implementation_time` fails to parse is logged and skipped. -/
def start_init (initial_tasks : Pending) : MgrState :=
  { scheduled_tasks := initial_tasks,
    task_queue := initial_tasks.foldl
      (fun q kv =>
        match parseTimestamp kv.2.implementation_time with
        | some ts => q ++ [(ts, kv.1)]
        | none => q) [] }

/-- One poll iteration of `TaskManager._scheduler_loop`: if the queue head is
due, pop it; under the lock, discard it silently when the id is no longer in
`scheduled_tasks`; otherwise query the Status Oracle, and unless the status is
exactly `"canceled"` delete the entry, trigger `save_tasks`, and hand the task
to `execute_task_async` — all three still inside the `with self.file_lock`
block. -/
def scheduler_iter (status : String → Option String) (now : Int) (st : MgrState) :
    MgrState × List Action × SchedEvent :=
  match queueMin st.task_queue with
  | none => (st, [], .slept)
  | some (next_time, change_number) =>
    if next_time ≤ now then
      let q := eraseEntry st.task_queue (next_time, change_number)
      match dictGet st.scheduled_tasks change_number with
      | none => (⟨st.scheduled_tasks, q⟩, [], .stale next_time change_number)
      | some task =>
        if status change_number = some "canceled" then
          (⟨st.scheduled_tasks, q⟩, [Action.oracleCheck change_number true],
           .skipped next_time change_number)
        else
          (⟨dictErase st.scheduled_tasks change_number, q⟩,
           [Action.oracleCheck change_number true,
            Action.removePending change_number true,
            Action.save (save_tasks (dictErase st.scheduled_tasks change_number)) true,
            Action.dispatchExec task true],
           .executed next_time change_number task)
    else (st, [], .slept)

/-- The ids collected by one sweep of `_status_checker_loop`: those snapshotted
ids whose oracle status equals `"canceled"`. -/
def changesToRemove (status : String → Option String) (p : Pending) : List String :=
  (dictKeys p).filter (fun id => decide (status id = some "canceled"))

/-- The batch-removal pass at the end of a sweep: for each collected id, if it
is still in the dict, delete it (the per-id membership recheck of the source). -/
def sweepRemove : List String → Pending → Pending × List Action
  | [], p => (p, [])
  | id :: ids, p =>
    if dictContains p id then
      let r := sweepRemove ids (dictErase p id)
      (r.1, Action.removePending id true :: r.2)
    else sweepRemove ids p

/-- One sweep cycle of `TaskManager._status_checker_loop`: snapshot the ids
under the lock, query the oracle for each outside the lock, then — only when
something was collected — reacquire the lock, delete the whole batch, and
trigger a single `save_tasks` still under the lock. -/
def status_checker_sweep (status : String → Option String) (st : MgrState) :
    MgrState × List Action :=
  let change_numbers := dictKeys st.scheduled_tasks
  let checkActs := change_numbers.map (fun id => Action.oracleCheck id false)
  let to_remove := changesToRemove status st.scheduled_tasks
  if to_remove.isEmpty then (st, checkActs)
  else
    let r := sweepRemove to_remove st.scheduled_tasks
    (⟨r.1, st.task_queue⟩, checkActs ++ r.2 ++ [Action.save (save_tasks r.1) true])

/-! ### Interleaved engine activity (no re-adds)

A run interleaves scheduler-loop iterations, whole sweep cycles, and explicit
`remove_task` calls in an arbitrary order, reflecting that all three
contenders serialise their dict mutations through the same lock. -/

/-- One serialised step of engine activity. -/
inductive EngineStep where
  | sched (status : String → Option String) (now : Int)
  | sweep (status : String → Option String)
  | rem (change_number : String)

/-- Apply one engine step. -/
def engine_step : EngineStep → MgrState → MgrState × List Action × List SchedEvent
  | .sched status now, st =>
      let r := scheduler_iter status now st
      (r.1, r.2.1, [r.2.2])
  | .sweep status, st =>
      let r := status_checker_sweep status st
      (r.1, r.2, [])
  | .rem id, st =>
      let r := remove_task st id
      (r.1, r.2.1, [])

/-- Run a list of engine steps, concatenating traces. -/
def engine_run : List EngineStep → MgrState → MgrState × List Action × List SchedEvent
  | [], st => (st, [], [])
  | s :: rest, st =>
    let r1 := engine_step s st
    let r2 := engine_run rest r1.1
    (r2.1, r1.2.1 ++ r2.2.1, r1.2.2 ++ r2.2.2)

/-- Run scheduler-loop iterations only (oracle and clock per iteration). -/
def scheduler_run : List ((String → Option String) × Int) → MgrState →
    MgrState × List Action × List SchedEvent
  | [], st => (st, [], [])
  | (status, now) :: rest, st =>
    let r1 := scheduler_iter status now st
    let r2 := scheduler_run rest r1.1
    (r2.1, r1.2.1 ++ r2.2.1, r1.2.2 :: r2.2.2)

/-! ### `services/` variant: `TaskScheduler` + `TaskStore` + `StatusChecker` -/

/-- `TaskStore.tasks` plus `TaskScheduler.task_queue`. -/
structure TSState where
  tasks : Pending
  task_queue : List (Int × String)
deriving Repr, DecidableEq

/-- `TaskStore.remove`: delete and persist if present.  No lock exists in this
variant, so every action carries `lockHeld := false`. -/
def store_remove (tasks : Pending) (change_number : String) : Pending × List Action × Bool :=
  if dictContains tasks change_number then
    (dictErase tasks change_number,
     [Action.removePending change_number false,
      Action.save (save_tasks (dictErase tasks change_number)) false], true)
  else (tasks, [], false)

/-- One poll iteration of `TaskScheduler._scheduler_loop`: pop the due head,
look the task up in the store, check the oracle, and if not `"canceled"`
**start the Executor thread first and only then** call `task_store.remove`
(which also persists). -/
def ts_scheduler_iter (status : String → Option String) (now : Int) (st : TSState) :
    TSState × List Action × SchedEvent :=
  match queueMin st.task_queue with
  | none => (st, [], .slept)
  | some (next_time, change_number) =>
    if next_time ≤ now then
      let q := eraseEntry st.task_queue (next_time, change_number)
      match dictGet st.tasks change_number with
      | none => (⟨st.tasks, q⟩, [], .stale next_time change_number)
      | some task =>
        if status change_number = some "canceled" then
          (⟨st.tasks, q⟩, [Action.oracleCheck change_number false],
           .skipped next_time change_number)
        else
          let r := store_remove st.tasks change_number
          (⟨r.1, q⟩,
           [Action.oracleCheck change_number false,
            Action.dispatchExec task false] ++ r.2.1,
           .executed next_time change_number task)
    else (st, [], .slept)

/-- One sweep of `StatusChecker._checker_loop`: for each snapshotted id in
order, check the oracle and, when it reports `"canceled"`, immediately call
`task_store.remove` — which performs one persistence write per evicted id. -/
def sc_checker_sweep (status : String → Option String) (tasks : Pending) :
    Pending × List Action :=
  (dictKeys tasks).foldl
    (fun acc id =>
      let checked : Pending × List Action := (acc.1, acc.2 ++ [Action.oracleCheck id false])
      if status id = some "canceled" then
        let r := store_remove checked.1 id
        (r.1, checked.2 ++ r.2.1)
      else checked)
    (tasks, [])

/-! ### State predicates -/

/-- Every dict entry is stored under its own `change_number` — true of every
state the engine builds, since both `add_task` and `load_tasks` key each task
dict by its `change_number` field. -/
def WellKeyed (p : Pending) : Prop := ∀ kv ∈ p, kv.2.change_number = kv.1

instance (p : Pending) : Decidable (WellKeyed p) := by
  unfold WellKeyed; infer_instance

/-- A queue entry is accurate when the task currently stored under its id (if
any) parses to exactly this entry's timestamp. -/
def keyAccurate (st : MgrState) (e : Int × String) : Bool :=
  match dictGet st.scheduled_tasks e.2 with
  | none => true
  | some task => decide (parseTimestamp task.implementation_time = some e.1)

/-- Every queue entry is accurate: the no-stale-reschedule-entry invariant
(it holds whenever each pending id was pushed once with its current due time).
-/
def KeysAccurate (st : MgrState) : Prop := ∀ e ∈ st.task_queue, keyAccurate st e = true

instance (st : MgrState) : Decidable (KeysAccurate st) := by
  unfold KeysAccurate; infer_instance

/-! ### Concrete data for witnesses and counterexamples -/

/-- Task "A" due 2025-05-06 10:00:00. -/
def taskA10 : Task := ⟨"A", "2025-05-06 10:00:00", "2025-05-01 00:00:00"⟩

/-- Task "A" rescheduled to 2025-05-06 12:00:00. -/
def taskA12 : Task := ⟨"A", "2025-05-06 12:00:00", "2025-05-01 00:30:00"⟩

/-- Task "B" due 2025-05-06 11:00:00. -/
def taskB11 : Task := ⟨"B", "2025-05-06 11:00:00", "2025-05-01 00:00:00"⟩

/-- A task whose due-time string does not parse. -/
def taskBad : Task := ⟨"X", "mid May at ten", "2025-05-01 00:00:00"⟩

/-- Queue key of 2025-05-06 10:00:00. -/
def due10 : Int := (parseTimestamp "2025-05-06 10:00:00").getD 0

/-- Queue key of 2025-05-06 11:00:00. -/
def due11 : Int := (parseTimestamp "2025-05-06 11:00:00").getD 0

/-- Queue key of 2025-05-06 12:00:00. -/
def due12 : Int := (parseTimestamp "2025-05-06 12:00:00").getD 0

/-- Status Oracle that always answers "approved". -/
def oracleApproved : String → Option String := fun _ => some "approved"

/-- Status Oracle that always answers "canceled". -/
def oracleCanceled : String → Option String := fun _ => some "canceled"

/-- Manager state with the single task "A". -/
def stA : MgrState := ⟨[("A", taskA10)], [(due10, "A")]⟩

/-- Manager state with tasks "A" and "B". -/
def stAB : MgrState := ⟨[("A", taskA10), ("B", taskB11)], [(due10, "A"), (due11, "B")]⟩

/-- Manager state after `add_task(taskA10); add_task(taskA12)` from empty:
"A" rescheduled from 10:00 to 12:00, the stale 10:00 queue entry retained. -/
def rescheduledState : MgrState := (add_task (add_task ⟨[], []⟩ taskA10).1 taskA12).1

/-- Services-variant state with the single task "B". -/
def tsStB : TSState := ⟨[("B", taskB11)], [(due11, "B")]⟩

/-- Initial task dict containing one unparseable record and one good one. -/
def initXA : Pending := [("X", taskBad), ("A", taskA10)]

end Sc3

namespace Sc3

/-! ## Helper lemmas: dict model -/

lemma dictGet_erase_self (p : Pending) (k : String) : dictGet (dictErase p k) k = none := by
  induction p with
  | nil => rfl
  | cons kv p ih =>
    by_cases h : kv.1 = k
    · simpa [dictErase, h] using ih
    · simp [dictErase, h, dictGet, ih]

lemma dictGet_erase_ne (p : Pending) {i k : String} (h : i ≠ k) :
    dictGet (dictErase p k) i = dictGet p i := by
  induction p with
  | nil => rfl
  | cons kv p ih =>
    by_cases hk : kv.1 = k
    · have hki : ¬ kv.1 = i := fun hi => h (by rw [← hi, hk])
      simp only [dictErase, if_pos hk, dictGet, if_neg hki]
      exact ih
    · by_cases hi : kv.1 = i
      · simp only [dictErase, if_neg hk, dictGet, if_pos hi]
      · simp only [dictErase, if_neg hk, dictGet, if_neg hi]
        exact ih

lemma dictGet_erase_none (p : Pending) {i : String} (k : String)
    (h : dictGet p i = none) : dictGet (dictErase p k) i = none := by
  by_cases hik : i = k
  · rw [hik]; exact dictGet_erase_self p k
  · rw [dictGet_erase_ne p hik]; exact h

lemma dictGet_erase_some (p : Pending) {i k : String} {v : Task}
    (h : dictGet (dictErase p k) i = some v) : dictGet p i = some v := by
  by_cases hik : i = k
  · rw [hik, dictGet_erase_self] at h; exact absurd h (by simp)
  · rwa [dictGet_erase_ne p hik] at h

lemma dictGet_mem {p : Pending} {k : String} {v : Task}
    (h : dictGet p k = some v) : (k, v) ∈ p := by
  induction p with
  | nil => simp [dictGet] at h
  | cons kv p ih =>
    by_cases hk : kv.1 = k
    · simp only [dictGet, if_pos hk] at h
      have hkv : kv = (k, v) := by
        obtain ⟨k1, v1⟩ := kv
        simp only [Option.some.injEq] at h
        simp_all
      exact List.mem_cons.mpr (Or.inl hkv.symm)
    · simp only [dictGet, if_neg hk] at h
      exact List.mem_cons_of_mem _ (ih h)

lemma mem_dictErase {p : Pending} {k : String} {x : String × Task}
    (h : x ∈ dictErase p k) : x ∈ p := by
  induction p with
  | nil => simp [dictErase] at h
  | cons kv p ih =>
    by_cases hk : kv.1 = k
    · simp only [dictErase, if_pos hk] at h
      exact List.mem_cons_of_mem _ (ih h)
    · simp only [dictErase, if_neg hk] at h
      rcases List.mem_cons.mp h with h | h
      · exact h ▸ List.mem_cons_self _ _
      · exact List.mem_cons_of_mem _ (ih h)

lemma dictContains_eq (p : Pending) (k : String) :
    dictContains p k = (dictGet p k).isSome := by
  induction p with
  | nil => rfl
  | cons kv p ih =>
    by_cases hk : kv.1 = k
    · simp [dictContains, dictGet, hk]
    · simp [dictContains, dictGet, hk, ih]

lemma dictContains_false_iff (p : Pending) (k : String) :
    dictContains p k = false ↔ dictGet p k = none := by
  rw [dictContains_eq]
  cases dictGet p k <;> simp

lemma dictContains_erase_self (p : Pending) (k : String) :
    dictContains (dictErase p k) k = false := by
  rw [dictContains_false_iff]; exact dictGet_erase_self p k

lemma dictKeys_of_get_some {p : Pending} {k : String} {v : Task}
    (h : dictGet p k = some v) : k ∈ dictKeys p := by
  have := dictGet_mem h
  exact List.mem_map.mpr ⟨(k, v), this, rfl⟩

lemma dictGet_of_not_key {p : Pending} {k : String}
    (h : k ∉ dictKeys p) : dictGet p k = none := by
  cases hg : dictGet p k with
  | none => rfl
  | some v => exact absurd (dictKeys_of_get_some hg) h

lemma dictInsert_length {p : Pending} {k : String} (v : Task)
    (h : dictContains p k = false) : (dictInsert p k v).length = p.length + 1 := by
  simp [dictInsert, h]

lemma dictGet_of_mem_nodup {p : Pending} {k : String} {v : Task}
    (hnd : (dictKeys p).Nodup) (h : (k, v) ∈ p) : dictGet p k = some v := by
  induction p with
  | nil => simp at h
  | cons kv p ih =>
    rcases List.mem_cons.mp h with h | h
    · simp [dictGet, ← h]
    · have hk : kv.1 ≠ k := by
        intro hkk
        have : k ∈ dictKeys p := List.mem_map.mpr ⟨(k, v), h, rfl⟩
        rw [dictKeys, List.map_cons, List.nodup_cons] at hnd
        exact hnd.1 (hkk ▸ this)
      simp only [dictGet, if_neg hk]
      exact ih (by rw [dictKeys, List.map_cons, List.nodup_cons] at hnd; exact hnd.2) h

lemma wellKeyed_erase {p : Pending} (k : String) (h : WellKeyed p) :
    WellKeyed (dictErase p k) := fun kv hkv => h kv (mem_dictErase hkv)

end Sc3

namespace Sc3

/-! ## Helper lemmas: Due-Time Queue order -/

lemma entryLt_irrefl (a : Int × String) : ¬ entryLt a a := by
  unfold entryLt
  push_neg
  exact ⟨le_refl _, fun _ => le_refl _⟩

lemma entryLt_trans {a b c : Int × String} (h1 : entryLt a b) (h2 : entryLt b c) :
    entryLt a c := by
  rcases h1 with h1 | ⟨h1e, h1s⟩ <;> rcases h2 with h2 | ⟨h2e, h2s⟩
  · exact Or.inl (lt_trans h1 h2)
  · exact Or.inl (h2e ▸ h1)
  · exact Or.inl (h1e ▸ h2)
  · exact Or.inr ⟨h1e.trans h2e, lt_trans h1s h2s⟩

lemma entryLe_lt_trans {a b c : Int × String} (h1 : ¬ entryLt b a) (h2 : entryLt b c) :
    entryLt a c := by
  unfold entryLt at *
  push_neg at h1
  obtain ⟨h1f, h1s⟩ := h1
  rcases h2 with h2 | ⟨h2e, h2s⟩
  · exact Or.inl (lt_of_le_of_lt h1f h2)
  · rcases lt_or_eq_of_le h1f with hlt | heq
    · exact Or.inl (h2e ▸ hlt)
    · exact Or.inr ⟨heq.trans h2e, lt_of_le_of_lt (h1s heq.symm) h2s⟩

lemma foldl_minEntry_mem (es : List (Int × String)) (acc : Int × String) :
    es.foldl minEntry acc = acc ∨ es.foldl minEntry acc ∈ es := by
  induction es generalizing acc with
  | nil => exact Or.inl rfl
  | cons y ys ih =>
    simp only [List.foldl_cons]
    rcases ih (minEntry acc y) with h | h
    · rw [h]
      by_cases hc : entryLt y acc
      · have hmin : minEntry acc y = y := by simp only [minEntry, if_pos hc]
        rw [hmin]
        exact Or.inr (List.mem_cons_self _ _)
      · have hmin : minEntry acc y = acc := by simp only [minEntry, if_neg hc]
        rw [hmin]
        exact Or.inl rfl
    · exact Or.inr (List.mem_cons_of_mem _ h)

lemma foldl_minEntry_le (es : List (Int × String)) (acc : Int × String) :
    (∀ x ∈ es, ¬ entryLt x (es.foldl minEntry acc)) ∧
      ¬ entryLt acc (es.foldl minEntry acc) := by
  induction es generalizing acc with
  | nil => exact ⟨by simp, entryLt_irrefl acc⟩
  | cons y ys ih =>
    simp only [List.foldl_cons]
    obtain ⟨ihall, ihacc⟩ := ih (minEntry acc y)
    by_cases hc : entryLt y acc
    · have hmin : minEntry acc y = y := by simp only [minEntry, if_pos hc]
      rw [hmin] at ihall ihacc ⊢
      refine ⟨?_, fun hcon => ihacc (entryLt_trans hc hcon)⟩
      intro x hx
      rcases List.mem_cons.mp hx with hx | hx
      · exact fun hcon => ihacc (hx ▸ hcon)
      · exact ihall x hx
    · have hmin : minEntry acc y = acc := by simp only [minEntry, if_neg hc]
      rw [hmin] at ihall ihacc ⊢
      refine ⟨?_, ihacc⟩
      intro x hx
      rcases List.mem_cons.mp hx with hx | hx
      · exact fun hcon => ihacc (entryLe_lt_trans hc (hx ▸ hcon))
      · exact ihall x hx

lemma queueMin_mem {q : List (Int × String)} {m : Int × String}
    (h : queueMin q = some m) : m ∈ q := by
  cases q with
  | nil => simp [queueMin] at h
  | cons e es =>
    simp only [queueMin, Option.some.injEq] at h
    rcases foldl_minEntry_mem es e with h2 | h2
    · exact List.mem_cons.mpr (Or.inl (h.symm.trans h2))
    · exact List.mem_cons_of_mem _ (h ▸ h2)

lemma queueMin_not_lt {q : List (Int × String)} {m : Int × String}
    (h : queueMin q = some m) : ∀ x ∈ q, ¬ entryLt x m := by
  cases q with
  | nil => simp [queueMin] at h
  | cons e es =>
    simp only [queueMin, Option.some.injEq] at h
    obtain ⟨hall, hacc⟩ := foldl_minEntry_le es e
    intro x hx
    rcases List.mem_cons.mp hx with hx | hx
    · exact fun hcon => (h ▸ hacc) (hx ▸ hcon)
    · exact h ▸ hall x hx

lemma fst_le_of_not_entryLt {x m : Int × String} (h : ¬ entryLt x m) : m.1 ≤ x.1 := by
  unfold entryLt at h
  push_neg at h
  exact h.1

lemma mem_eraseEntry {q : List (Int × String)} {e x : Int × String}
    (h : x ∈ eraseEntry q e) : x ∈ q := by
  induction q with
  | nil => simp [eraseEntry] at h
  | cons y ys ih =>
    by_cases hy : y = e
    · simp only [eraseEntry, if_pos hy] at h
      exact List.mem_cons_of_mem _ h
    · simp only [eraseEntry, if_neg hy] at h
      rcases List.mem_cons.mp h with h | h
      · exact List.mem_cons.mpr (Or.inl h)
      · exact List.mem_cons_of_mem _ (ih h)

end Sc3

namespace Sc3

/-! ## Helper lemmas: one scheduler-loop iteration -/

lemma scheduler_iter_spec (o : String → Option String) (n : Int) (st : MgrState) :
    scheduler_iter o n st = (st, [], .slept) ∨
    ∃ t id, queueMin st.task_queue = some (t, id) ∧ t ≤ n ∧
      ((dictGet st.scheduled_tasks id = none ∧
          scheduler_iter o n st =
            (⟨st.scheduled_tasks, eraseEntry st.task_queue (t, id)⟩, [], .stale t id)) ∨
       (∃ task, dictGet st.scheduled_tasks id = some task ∧
          ((o id = some "canceled" ∧
              scheduler_iter o n st =
                (⟨st.scheduled_tasks, eraseEntry st.task_queue (t, id)⟩,
                 [Action.oracleCheck id true], .skipped t id)) ∨
           (o id ≠ some "canceled" ∧
              scheduler_iter o n st =
                (⟨dictErase st.scheduled_tasks id, eraseEntry st.task_queue (t, id)⟩,
                 [Action.oracleCheck id true, Action.removePending id true,
                  Action.save (save_tasks (dictErase st.scheduled_tasks id)) true,
                  Action.dispatchExec task true],
                 .executed t id task))))) := by
  rcases hq : queueMin st.task_queue with _ | ⟨t, id⟩
  · left
    simp only [scheduler_iter, hq]
  · by_cases ht : t ≤ n
    · right
      refine ⟨t, id, rfl, ht, ?_⟩
      rcases hg : dictGet st.scheduled_tasks id with _ | task
      · exact Or.inl ⟨rfl, by simp only [scheduler_iter, hq, if_pos ht, hg]⟩
      · refine Or.inr ⟨task, rfl, ?_⟩
        by_cases hc : o id = some "canceled"
        · exact Or.inl ⟨hc, by simp only [scheduler_iter, hq, if_pos ht, hg, if_pos hc]⟩
        · exact Or.inr ⟨hc, by simp only [scheduler_iter, hq, if_pos ht, hg, if_neg hc]⟩
    · left
      simp only [scheduler_iter, hq, if_neg ht]

/-! ## Helper lemmas: sweep batch removal -/

lemma sweepRemove_acts (ids : List String) (p : Pending) :
    ∀ a ∈ (sweepRemove ids p).2, ∃ id, id ∈ ids ∧ a = Action.removePending id true := by
  induction ids generalizing p with
  | nil => simp [sweepRemove]
  | cons id ids ih =>
    by_cases hc : dictContains p id
    · simp only [sweepRemove, if_pos hc]
      intro a ha
      rcases List.mem_cons.mp ha with ha | ha
      · exact ⟨id, List.mem_cons_self _ _, ha⟩
      · obtain ⟨j, hj, hja⟩ := ih (dictErase p id) a ha
        exact ⟨j, List.mem_cons_of_mem _ hj, hja⟩
    · simp only [sweepRemove, if_neg hc]
      intro a ha
      obtain ⟨j, hj, hja⟩ := ih p a ha
      exact ⟨j, List.mem_cons_of_mem _ hj, hja⟩

lemma sweepRemove_get_none {i : String} (ids : List String) (p : Pending)
    (h : dictGet p i = none) : dictGet (sweepRemove ids p).1 i = none := by
  induction ids generalizing p with
  | nil => exact h
  | cons id ids ih =>
    by_cases hc : dictContains p id
    · simp only [sweepRemove, if_pos hc]
      exact ih _ (dictGet_erase_none p id h)
    · simp only [sweepRemove, if_neg hc]
      exact ih _ h

lemma sweepRemove_get_not_mem {i : String} (ids : List String) (p : Pending)
    (h : i ∉ ids) : dictGet (sweepRemove ids p).1 i = dictGet p i := by
  induction ids generalizing p with
  | nil => rfl
  | cons id ids ih =>
    have hi : i ≠ id := fun he => h (he ▸ List.mem_cons_self _ _)
    have hrest : i ∉ ids := fun he => h (List.mem_cons_of_mem _ he)
    by_cases hc : dictContains p id
    · simp only [sweepRemove, if_pos hc]
      rw [ih _ hrest, dictGet_erase_ne p hi]
    · simp only [sweepRemove, if_neg hc]
      exact ih _ hrest

lemma sweepRemove_get_mem {i : String} (ids : List String) (p : Pending)
    (h : i ∈ ids) : dictGet (sweepRemove ids p).1 i = none := by
  induction ids generalizing p with
  | nil => simp at h
  | cons id ids ih =>
    by_cases hc : dictContains p id
    · simp only [sweepRemove, if_pos hc]
      by_cases hi : i ∈ ids
      · exact ih _ hi
      · have hii : i = id := by
          rcases List.mem_cons.mp h with h1 | h1
          · exact h1
          · exact absurd h1 hi
        exact sweepRemove_get_none ids _ (hii ▸ dictGet_erase_self p id)
    · simp only [sweepRemove, if_neg hc]
      by_cases hi : i ∈ ids
      · exact ih _ hi
      · have hii : i = id := by
          rcases List.mem_cons.mp h with h1 | h1
          · exact h1
          · exact absurd h1 hi
        have hcf : dictContains p id = false := by
          revert hc; cases dictContains p id <;> simp
        have hgn : dictGet p i = none := by
          rw [hii]; exact (dictContains_false_iff p id).mp hcf
        exact sweepRemove_get_none ids p hgn

lemma sweepRemove_get_some {i : String} {v : Task} (ids : List String) (p : Pending)
    (h : dictGet (sweepRemove ids p).1 i = some v) : dictGet p i = some v := by
  by_cases hi : i ∈ ids
  · rw [sweepRemove_get_mem ids p hi] at h
    exact absurd h (by simp)
  · rwa [sweepRemove_get_not_mem ids p hi] at h

lemma sweepRemove_wellKeyed (ids : List String) (p : Pending) (h : WellKeyed p) :
    WellKeyed (sweepRemove ids p).1 := by
  induction ids generalizing p with
  | nil => exact h
  | cons id ids ih =>
    by_cases hc : dictContains p id
    · simp only [sweepRemove, if_pos hc]
      exact ih _ (wellKeyed_erase id h)
    · simp only [sweepRemove, if_neg hc]
      exact ih _ h

/-! ## Helper lemmas: trace bookkeeping -/

lemma saveCount_append (a b : List Action) :
    saveCount (a ++ b) = saveCount a + saveCount b := by
  unfold saveCount
  rw [List.filter_append, List.length_append]

lemma saveCount_eq_zero {as : List Action} (h : ∀ a ∈ as, isSave a = false) :
    saveCount as = 0 := by
  unfold saveCount
  rw [List.filter_eq_nil_iff.mpr (fun a ha => by simp [h a ha])]
  rfl

lemma execCount_append (id : String) (a b : List Action) :
    execCount id (a ++ b) = execCount id a + execCount id b := by
  unfold execCount
  rw [List.filter_append, List.length_append]

lemma execCount_eq_zero {id : String} {as : List Action}
    (h : ∀ a ∈ as, isDispatchFor id a = false) : execCount id as = 0 := by
  unfold execCount
  rw [List.filter_eq_nil_iff.mpr (fun a ha => by simp [h a ha])]
  rfl

lemma popKeys_append (a b : List SchedEvent) :
    popKeys (a ++ b) = popKeys a ++ popKeys b := by
  unfold popKeys
  rw [List.filterMap_append]

lemma execEvents_append (a b : List SchedEvent) :
    execEvents (a ++ b) = execEvents a ++ execEvents b := by
  unfold execEvents
  rw [List.filterMap_append]

end Sc3

namespace Sc3

/-! ## Helper lemmas: sweep cycle shape -/

lemma list_isEmpty_eq_nil {α : Type} {l : List α} (h : l.isEmpty = true) : l = [] := by
  cases l with
  | nil => rfl
  | cons a l => simp [List.isEmpty] at h

lemma status_checker_sweep_queue (o : String → Option String) (st : MgrState) :
    (status_checker_sweep o st).1.task_queue = st.task_queue := by
  by_cases he : (changesToRemove o st.scheduled_tasks).isEmpty = true
  · simp only [status_checker_sweep, he, if_true]
  · simp only [status_checker_sweep, if_neg he]

lemma status_checker_sweep_pending_eq (o : String → Option String) (st : MgrState) :
    (status_checker_sweep o st).1.scheduled_tasks =
      (sweepRemove (changesToRemove o st.scheduled_tasks) st.scheduled_tasks).1 := by
  by_cases he : (changesToRemove o st.scheduled_tasks).isEmpty = true
  · rw [list_isEmpty_eq_nil he]
    simp only [status_checker_sweep, he, if_true, sweepRemove]
  · simp only [status_checker_sweep, if_neg he]

lemma status_checker_sweep_trace (o : String → Option String) (st : MgrState) :
    (status_checker_sweep o st).2 =
      (dictKeys st.scheduled_tasks).map (fun id => Action.oracleCheck id false) ++
      (sweepRemove (changesToRemove o st.scheduled_tasks) st.scheduled_tasks).2 ++
      (if (changesToRemove o st.scheduled_tasks).isEmpty then []
       else [Action.save
         (save_tasks (sweepRemove (changesToRemove o st.scheduled_tasks) st.scheduled_tasks).1)
         true]) := by
  by_cases he : (changesToRemove o st.scheduled_tasks).isEmpty = true
  · have hnil : changesToRemove o st.scheduled_tasks = [] := list_isEmpty_eq_nil he
    simp [status_checker_sweep, he, hnil, sweepRemove]
  · simp only [status_checker_sweep, if_neg he]

lemma status_checker_sweep_pending (o : String → Option String) (st : MgrState) (i : String) :
    dictGet (status_checker_sweep o st).1.scheduled_tasks i =
      if o i = some "canceled" then none else dictGet st.scheduled_tasks i := by
  rw [status_checker_sweep_pending_eq]
  by_cases hcanc : o i = some "canceled"
  · rw [if_pos hcanc]
    by_cases hmem : i ∈ dictKeys st.scheduled_tasks
    · have hir : i ∈ changesToRemove o st.scheduled_tasks :=
        List.mem_filter.mpr ⟨hmem, by simp [hcanc]⟩
      exact sweepRemove_get_mem _ _ hir
    · exact sweepRemove_get_none _ _ (dictGet_of_not_key hmem)
  · rw [if_neg hcanc]
    have hnr : i ∉ changesToRemove o st.scheduled_tasks := by
      intro hmem
      have := (List.mem_filter.mp hmem).2
      simp at this
      exact hcanc this
    exact sweepRemove_get_not_mem _ _ hnr

lemma status_checker_sweep_no_dispatch (o : String → Option String) (st : MgrState)
    (id : String) : ∀ a ∈ (status_checker_sweep o st).2, isDispatchFor id a = false := by
  intro a ha
  rw [status_checker_sweep_trace] at ha
  rcases List.mem_append.mp ha with ha | ha
  · rcases List.mem_append.mp ha with ha | ha
    · obtain ⟨j, _, hj⟩ := List.mem_map.mp ha
      rw [← hj]
      rfl
    · obtain ⟨j, _, hj⟩ := sweepRemove_acts _ _ a ha
      rw [hj]
      rfl
  · by_cases he : (changesToRemove o st.scheduled_tasks).isEmpty = true
    · rw [he] at ha
      simp at ha
    · rw [if_neg he] at ha
      rcases List.mem_singleton.mp ha with rfl
      rfl

/-! ## Helper lemmas: one engine step -/

lemma engine_step_absent {id : String} (s : EngineStep) (st : MgrState)
    (hW : WellKeyed st.scheduled_tasks)
    (h : dictGet st.scheduled_tasks id = none) :
    dictGet (engine_step s st).1.scheduled_tasks id = none ∧
      execCount id (engine_step s st).2.1 = 0 := by
  cases s with
  | sched o n =>
    rcases scheduler_iter_spec o n st with hs |
      ⟨t, j, hq, ht, ⟨hg, hs⟩ | ⟨task, hg, ⟨hc, hs⟩ | ⟨hc, hs⟩⟩⟩
    · simp only [engine_step, hs]
      exact ⟨h, rfl⟩
    · simp only [engine_step, hs]
      exact ⟨h, rfl⟩
    · simp only [engine_step, hs]
      exact ⟨h, rfl⟩
    · simp only [engine_step, hs]
      have hj : task.change_number = j := hW _ (dictGet_mem hg)
      have hne : j ≠ id := by
        intro he
        rw [he, h] at hg
        exact Option.noConfusion hg
      refine ⟨dictGet_erase_none _ _ h, ?_⟩
      simp [execCount, List.filter, isDispatchFor, hj, hne]
  | sweep o =>
    constructor
    · simp only [engine_step]
      rw [status_checker_sweep_pending]
      split
      · rfl
      · exact h
    · simp only [engine_step]
      exact execCount_eq_zero (status_checker_sweep_no_dispatch o st id)
  | rem j =>
    by_cases hc : dictContains st.scheduled_tasks j = true
    · simp only [engine_step, remove_task, if_pos hc]
      exact ⟨dictGet_erase_none _ _ h, rfl⟩
    · simp only [engine_step, remove_task, if_neg hc]
      exact ⟨h, rfl⟩

lemma engine_step_dispatch {id : String} (s : EngineStep) (st : MgrState)
    (hW : WellKeyed st.scheduled_tasks) :
    execCount id (engine_step s st).2.1 ≤ 1 ∧
      (1 ≤ execCount id (engine_step s st).2.1 →
        dictGet (engine_step s st).1.scheduled_tasks id = none) := by
  cases s with
  | sched o n =>
    rcases scheduler_iter_spec o n st with hs |
      ⟨t, j, hq, ht, ⟨hg, hs⟩ | ⟨task, hg, ⟨hc, hs⟩ | ⟨hc, hs⟩⟩⟩
    · simp only [engine_step, hs]
      exact ⟨by simp [execCount, List.filter], by intro hcon; simp [execCount, List.filter] at hcon⟩
    · simp only [engine_step, hs]
      exact ⟨by simp [execCount, List.filter], by intro hcon; simp [execCount, List.filter] at hcon⟩
    · simp only [engine_step, hs]
      refine ⟨?_, ?_⟩
      · simp [execCount, List.filter, isDispatchFor]
      · intro hcon
        simp [execCount, List.filter, isDispatchFor] at hcon
    · simp only [engine_step, hs]
      have hj : task.change_number = j := hW _ (dictGet_mem hg)
      by_cases hji : j = id
      · constructor
        · simp [execCount, List.filter, isDispatchFor, hj, hji]
        · intro _
          rw [← hji]
          exact dictGet_erase_self _ _
      · constructor
        · simp [execCount, List.filter, isDispatchFor, hj, hji]
        · intro hcon
          simp [execCount, List.filter, isDispatchFor, hj, hji] at hcon
  | sweep o =>
    simp only [engine_step]
    rw [execCount_eq_zero (status_checker_sweep_no_dispatch o st id)]
    exact ⟨Nat.zero_le _, by intro hcon; exact absurd hcon (by simp)⟩
  | rem j =>
    by_cases hc : dictContains st.scheduled_tasks j = true
    · simp only [engine_step, remove_task, if_pos hc]
      exact ⟨by simp [execCount, List.filter, isDispatchFor],
        by intro hcon; simp [execCount, List.filter, isDispatchFor] at hcon⟩
    · simp only [engine_step, remove_task, if_neg hc]
      exact ⟨by simp [execCount, List.filter], by intro hcon; simp [execCount, List.filter] at hcon⟩

lemma engine_step_wellKeyed (s : EngineStep) (st : MgrState)
    (hW : WellKeyed st.scheduled_tasks) : WellKeyed (engine_step s st).1.scheduled_tasks := by
  cases s with
  | sched o n =>
    rcases scheduler_iter_spec o n st with hs |
      ⟨t, j, hq, ht, ⟨hg, hs⟩ | ⟨task, hg, ⟨hc, hs⟩ | ⟨hc, hs⟩⟩⟩
    all_goals simp only [engine_step, hs]
    · exact hW
    · exact hW
    · exact hW
    · exact wellKeyed_erase _ hW
  | sweep o =>
    simp only [engine_step]
    rw [show (status_checker_sweep o st).1.scheduled_tasks =
      (sweepRemove (changesToRemove o st.scheduled_tasks) st.scheduled_tasks).1 from
      status_checker_sweep_pending_eq o st]
    exact sweepRemove_wellKeyed _ _ hW
  | rem j =>
    by_cases hc : dictContains st.scheduled_tasks j = true
    · simp only [engine_step, remove_task, if_pos hc]
      exact wellKeyed_erase _ hW
    · simp only [engine_step, remove_task, if_neg hc]
      exact hW

lemma engine_step_sub (s : EngineStep) (st : MgrState) :
    (∀ e ∈ (engine_step s st).1.task_queue, e ∈ st.task_queue) ∧
    (∀ i v, dictGet (engine_step s st).1.scheduled_tasks i = some v →
       dictGet st.scheduled_tasks i = some v) := by
  cases s with
  | sched o n =>
    rcases scheduler_iter_spec o n st with hs |
      ⟨t, j, hq, ht, ⟨hg, hs⟩ | ⟨task, hg, ⟨hc, hs⟩ | ⟨hc, hs⟩⟩⟩
    · simp only [engine_step, hs]
      exact ⟨fun e he => he, fun i v hv => hv⟩
    · simp only [engine_step, hs]
      exact ⟨fun e he => mem_eraseEntry he, fun i v hv => hv⟩
    · simp only [engine_step, hs]
      exact ⟨fun e he => mem_eraseEntry he, fun i v hv => hv⟩
    · simp only [engine_step, hs]
      exact ⟨fun e he => mem_eraseEntry he, fun i v hv => dictGet_erase_some _ hv⟩
  | sweep o =>
    constructor
    · intro e he
      simp only [engine_step] at he
      rw [status_checker_sweep_queue] at he
      exact he
    · intro i v hv
      simp only [engine_step] at hv
      rw [status_checker_sweep_pending_eq] at hv
      exact sweepRemove_get_some _ _ hv
  | rem j =>
    by_cases hc : dictContains st.scheduled_tasks j = true
    · simp only [engine_step, remove_task, if_pos hc]
      exact ⟨fun e he => he, fun i v hv => dictGet_erase_some _ hv⟩
    · simp only [engine_step, remove_task, if_neg hc]
      exact ⟨fun e he => he, fun i v hv => hv⟩

lemma keysAccurate_mono {st st2 : MgrState}
    (hq : ∀ e ∈ st2.task_queue, e ∈ st.task_queue)
    (hp : ∀ i v, dictGet st2.scheduled_tasks i = some v →
       dictGet st.scheduled_tasks i = some v)
    (h : KeysAccurate st) : KeysAccurate st2 := by
  intro e he
  have h1 := h e (hq e he)
  unfold keyAccurate at h1 ⊢
  cases hg : dictGet st2.scheduled_tasks e.2 with
  | none => rfl
  | some task =>
    rw [hp e.2 task hg] at h1
    exact h1

lemma engine_step_keysAccurate (s : EngineStep) (st : MgrState)
    (h : KeysAccurate st) : KeysAccurate (engine_step s st).1 :=
  keysAccurate_mono (engine_step_sub s st).1 (engine_step_sub s st).2 h

end Sc3

namespace Sc3

/-! ## Helper lemmas: runs -/

lemma engine_step_sweep_events (o : String → Option String) (st : MgrState) :
    (engine_step (.sweep o) st).2.2 = [] := rfl

lemma engine_step_rem_events (j : String) (st : MgrState) :
    (engine_step (.rem j) st).2.2 = [] := rfl

lemma popKeys_nil : popKeys [] = [] := rfl

lemma popKeys_cons_slept (evs : List SchedEvent) :
    popKeys (.slept :: evs) = popKeys evs := by
  simp only [popKeys, List.filterMap_cons, SchedEvent.popKey]

lemma popKeys_cons_stale (t : Int) (id : String) (evs : List SchedEvent) :
    popKeys (.stale t id :: evs) = t :: popKeys evs := by
  simp only [popKeys, List.filterMap_cons, SchedEvent.popKey]

lemma popKeys_cons_skipped (t : Int) (id : String) (evs : List SchedEvent) :
    popKeys (.skipped t id :: evs) = t :: popKeys evs := by
  simp only [popKeys, List.filterMap_cons, SchedEvent.popKey]

lemma popKeys_cons_executed (t : Int) (id : String) (task : Task) (evs : List SchedEvent) :
    popKeys (.executed t id task :: evs) = t :: popKeys evs := by
  simp only [popKeys, List.filterMap_cons, SchedEvent.popKey]

lemma execEvents_cons_slept (evs : List SchedEvent) :
    execEvents (.slept :: evs) = execEvents evs := by
  simp only [execEvents, List.filterMap_cons]

lemma execEvents_cons_stale (t : Int) (id : String) (evs : List SchedEvent) :
    execEvents (.stale t id :: evs) = execEvents evs := by
  simp only [execEvents, List.filterMap_cons]

lemma execEvents_cons_skipped (t : Int) (id : String) (evs : List SchedEvent) :
    execEvents (.skipped t id :: evs) = execEvents evs := by
  simp only [execEvents, List.filterMap_cons]

lemma execEvents_cons_executed (t : Int) (id : String) (task : Task)
    (evs : List SchedEvent) :
    execEvents (.executed t id task :: evs) = (t, id, task) :: execEvents evs := by
  simp only [execEvents, List.filterMap_cons]

lemma engine_run_absent {id : String} (steps : List EngineStep) : ∀ (st : MgrState),
    WellKeyed st.scheduled_tasks → dictGet st.scheduled_tasks id = none →
    execCount id (engine_run steps st).2.1 = 0 := by
  induction steps with
  | nil => intro st _ _; rfl
  | cons s rest ih =>
    intro st hW h
    simp only [engine_run]
    rw [execCount_append]
    obtain ⟨h1, h2⟩ := engine_step_absent s st hW h
    rw [h2, ih _ (engine_step_wellKeyed s st hW) h1]

lemma engine_run_at_most_once {id : String} (steps : List EngineStep) : ∀ (st : MgrState),
    WellKeyed st.scheduled_tasks → execCount id (engine_run steps st).2.1 ≤ 1 := by
  induction steps with
  | nil => intro st _; exact Nat.zero_le 1
  | cons s rest ih =>
    intro st hW
    simp only [engine_run]
    rw [execCount_append]
    obtain ⟨hle, himp⟩ := @engine_step_dispatch id s st hW
    by_cases h1 : 1 ≤ execCount id (engine_step s st).2.1
    · have h0 := engine_run_absent rest _ (engine_step_wellKeyed s st hW) (himp h1)
      omega
    · have h0 := ih _ (engine_step_wellKeyed s st hW)
      omega

lemma engine_run_pops (steps : List EngineStep) : ∀ (st : MgrState) (c : Int),
    KeysAccurate st → (∀ e ∈ st.task_queue, c ≤ e.1) →
    (∀ k ∈ popKeys (engine_run steps st).2.2, c ≤ k) ∧
    List.Pairwise (fun a b => a ≤ b) (popKeys (engine_run steps st).2.2) ∧
    (∀ p ∈ execEvents (engine_run steps st).2.2,
       parseTimestamp p.2.2.implementation_time = some p.1) := by
  induction steps with
  | nil =>
    intro st c _ _
    refine ⟨?_, ?_, ?_⟩
    · intro k hk
      simp [engine_run, popKeys] at hk
    · simp [engine_run, popKeys]
    · intro p hp
      simp [engine_run, execEvents] at hp
  | cons s rest ih =>
    intro st c hK hlb
    have hK2 : KeysAccurate (engine_step s st).1 := engine_step_keysAccurate s st hK
    cases s with
    | sweep o =>
      have hlb2 : ∀ e ∈ (engine_step (.sweep o) st).1.task_queue, c ≤ e.1 :=
        fun e he => hlb e ((engine_step_sub (.sweep o) st).1 e he)
      simp only [engine_run, engine_step_sweep_events, List.nil_append]
      exact ih _ c hK2 hlb2
    | rem j =>
      have hlb2 : ∀ e ∈ (engine_step (.rem j) st).1.task_queue, c ≤ e.1 :=
        fun e he => hlb e ((engine_step_sub (.rem j) st).1 e he)
      simp only [engine_run, engine_step_rem_events, List.nil_append]
      exact ih _ c hK2 hlb2
    | sched o n =>
      have hlb2g : ∀ e ∈ (engine_step (.sched o n) st).1.task_queue, c ≤ e.1 :=
        fun e he => hlb e ((engine_step_sub (.sched o n) st).1 e he)
      rcases scheduler_iter_spec o n st with hs |
        ⟨t, j, hq, ht, ⟨hg, hs⟩ | ⟨task, hg, ⟨hc, hs⟩ | ⟨hc, hs⟩⟩⟩
      · have hev : (engine_step (.sched o n) st).2.2 = [SchedEvent.slept] := by
          simp only [engine_step, hs]
        obtain ⟨h1, h2, h3⟩ := ih _ c hK2 hlb2g
        simp only [engine_run, hev, List.cons_append, List.nil_append]
        refine ⟨?_, ?_, ?_⟩
        · intro k hk
          rw [popKeys_cons_slept] at hk
          exact h1 k hk
        · rw [popKeys_cons_slept]
          exact h2
        · intro p hp
          rw [execEvents_cons_slept] at hp
          exact h3 p hp
      · have hev : (engine_step (.sched o n) st).2.2 = [SchedEvent.stale t j] := by
          simp only [engine_step, hs]
        have hct : c ≤ t := hlb _ (queueMin_mem hq)
        have hlb2 : ∀ e ∈ (engine_step (.sched o n) st).1.task_queue, t ≤ e.1 := by
          intro e he
          simp only [engine_step, hs] at he
          exact fst_le_of_not_entryLt (queueMin_not_lt hq e (mem_eraseEntry he))
        obtain ⟨h1, h2, h3⟩ := ih _ t hK2 hlb2
        simp only [engine_run, hev, List.cons_append, List.nil_append]
        refine ⟨?_, ?_, ?_⟩
        · intro k hk
          rw [popKeys_cons_stale] at hk
          rcases List.mem_cons.mp hk with hk | hk
          · exact hk ▸ hct
          · exact le_trans hct (h1 k hk)
        · rw [popKeys_cons_stale]
          exact List.pairwise_cons.mpr ⟨fun k hk => h1 k hk, h2⟩
        · intro p hp
          rw [execEvents_cons_stale] at hp
          exact h3 p hp
      · have hev : (engine_step (.sched o n) st).2.2 = [SchedEvent.skipped t j] := by
          simp only [engine_step, hs]
        have hct : c ≤ t := hlb _ (queueMin_mem hq)
        have hlb2 : ∀ e ∈ (engine_step (.sched o n) st).1.task_queue, t ≤ e.1 := by
          intro e he
          simp only [engine_step, hs] at he
          exact fst_le_of_not_entryLt (queueMin_not_lt hq e (mem_eraseEntry he))
        obtain ⟨h1, h2, h3⟩ := ih _ t hK2 hlb2
        simp only [engine_run, hev, List.cons_append, List.nil_append]
        refine ⟨?_, ?_, ?_⟩
        · intro k hk
          rw [popKeys_cons_skipped] at hk
          rcases List.mem_cons.mp hk with hk | hk
          · exact hk ▸ hct
          · exact le_trans hct (h1 k hk)
        · rw [popKeys_cons_skipped]
          exact List.pairwise_cons.mpr ⟨fun k hk => h1 k hk, h2⟩
        · intro p hp
          rw [execEvents_cons_skipped] at hp
          exact h3 p hp
      · have hev : (engine_step (.sched o n) st).2.2 = [SchedEvent.executed t j task] := by
          simp only [engine_step, hs]
        have hct : c ≤ t := hlb _ (queueMin_mem hq)
        have hlb2 : ∀ e ∈ (engine_step (.sched o n) st).1.task_queue, t ≤ e.1 := by
          intro e he
          simp only [engine_step, hs] at he
          exact fst_le_of_not_entryLt (queueMin_not_lt hq e (mem_eraseEntry he))
        have hparse : parseTimestamp task.implementation_time = some t := by
          have hka := hK (t, j) (queueMin_mem hq)
          simp [keyAccurate, hg] at hka
          exact hka
        obtain ⟨h1, h2, h3⟩ := ih _ t hK2 hlb2
        simp only [engine_run, hev, List.cons_append, List.nil_append]
        refine ⟨?_, ?_, ?_⟩
        · intro k hk
          rw [popKeys_cons_executed] at hk
          rcases List.mem_cons.mp hk with hk | hk
          · exact hk ▸ hct
          · exact le_trans hct (h1 k hk)
        · rw [popKeys_cons_executed]
          exact List.pairwise_cons.mpr ⟨fun k hk => h1 k hk, h2⟩
        · intro p hp
          rw [execEvents_cons_executed] at hp
          rcases List.mem_cons.mp hp with hp | hp
          · rw [hp]
            exact hparse
          · exact h3 p hp

lemma scheduler_run_avoid (inputs : List ((String → Option String) × Int)) :
    ∀ (st : MgrState) (id : String),
    (∀ e ∈ st.task_queue, e.2 ≠ id) →
    dictGet (scheduler_run inputs st).1.scheduled_tasks id = dictGet st.scheduled_tasks id ∧
    (∀ ev ∈ (scheduler_run inputs st).2.2, SchedEvent.touches id ev = false) := by
  induction inputs with
  | nil =>
    intro st id h
    refine ⟨rfl, ?_⟩
    intro ev hev
    simp [scheduler_run] at hev
  | cons inp rest ih =>
    obtain ⟨o, n⟩ := inp
    intro st id h
    rcases scheduler_iter_spec o n st with hs |
      ⟨t, j, hq, ht, ⟨hg, hs⟩ | ⟨task, hg, ⟨hc, hs⟩ | ⟨hc, hs⟩⟩⟩
    · simp only [scheduler_run, hs]
      obtain ⟨h1, h2⟩ := ih st id h
      refine ⟨h1, ?_⟩
      intro ev hev
      rcases List.mem_cons.mp hev with hev | hev
      · rw [hev]; rfl
      · exact h2 ev hev
    · have hj : j ≠ id := h (t, j) (queueMin_mem hq)
      simp only [scheduler_run, hs]
      have h2q : ∀ e ∈ eraseEntry st.task_queue (t, j), e.2 ≠ id :=
        fun e he => h e (mem_eraseEntry he)
      obtain ⟨h1, h2⟩ := ih ⟨st.scheduled_tasks, eraseEntry st.task_queue (t, j)⟩ id h2q
      refine ⟨h1, ?_⟩
      intro ev hev
      rcases List.mem_cons.mp hev with hev | hev
      · rw [hev]
        simp [SchedEvent.touches, hj]
      · exact h2 ev hev
    · have hj : j ≠ id := h (t, j) (queueMin_mem hq)
      simp only [scheduler_run, hs]
      have h2q : ∀ e ∈ eraseEntry st.task_queue (t, j), e.2 ≠ id :=
        fun e he => h e (mem_eraseEntry he)
      obtain ⟨h1, h2⟩ := ih ⟨st.scheduled_tasks, eraseEntry st.task_queue (t, j)⟩ id h2q
      refine ⟨h1, ?_⟩
      intro ev hev
      rcases List.mem_cons.mp hev with hev | hev
      · rw [hev]
        simp [SchedEvent.touches, hj]
      · exact h2 ev hev
    · have hj : j ≠ id := h (t, j) (queueMin_mem hq)
      simp only [scheduler_run, hs]
      have h2q : ∀ e ∈ eraseEntry st.task_queue (t, j), e.2 ≠ id :=
        fun e he => h e (mem_eraseEntry he)
      obtain ⟨h1, h2⟩ :=
        ih ⟨dictErase st.scheduled_tasks j, eraseEntry st.task_queue (t, j)⟩ id h2q
      refine ⟨?_, ?_⟩
      · rw [h1]
        exact dictGet_erase_ne _ (Ne.symm hj)
      · intro ev hev
        rcases List.mem_cons.mp hev with hev | hev
        · rw [hev]
          simp [SchedEvent.touches, hj]
        · exact h2 ev hev

lemma start_init_queue_mem {initial : Pending} {e : Int × String}
    (h : e ∈ (start_init initial).task_queue) :
    ∃ kv, kv ∈ initial ∧ parseTimestamp kv.2.implementation_time = some e.1 ∧ e.2 = kv.1 := by
  have main : ∀ (l : Pending) (acc : List (Int × String)),
      e ∈ l.foldl (fun q kv => match parseTimestamp kv.2.implementation_time with
        | some ts => q ++ [(ts, kv.1)]
        | none => q) acc →
      e ∈ acc ∨ ∃ kv, kv ∈ l ∧ parseTimestamp kv.2.implementation_time = some e.1 ∧
        e.2 = kv.1 := by
    intro l
    induction l with
    | nil =>
      intro acc h2
      exact Or.inl h2
    | cons kv rest ih =>
      intro acc h2
      simp only [List.foldl_cons] at h2
      rcases hp : parseTimestamp kv.2.implementation_time with _ | ts
      · simp only [hp] at h2
        rcases ih _ h2 with h3 | ⟨kv2, hkv2, hp2, he2⟩
        · exact Or.inl h3
        · exact Or.inr ⟨kv2, List.mem_cons_of_mem _ hkv2, hp2, he2⟩
      · simp only [hp] at h2
        rcases ih _ h2 with h3 | ⟨kv2, hkv2, hp2, he2⟩
        · rcases List.mem_append.mp h3 with h4 | h4
          · exact Or.inl h4
          · have he : e = (ts, kv.1) := List.mem_singleton.mp h4
            refine Or.inr ⟨kv, List.mem_cons_self _ _, ?_, ?_⟩
            · rw [he]
              exact hp
            · rw [he]
        · exact Or.inr ⟨kv2, List.mem_cons_of_mem _ hkv2, hp2, he2⟩
  have h0 := main initial [] (by unfold start_init at h; exact h)
  rcases h0 with h2 | h2
  · simp at h2
  · exact h2

end Sc3

namespace Sc3

/-! ## Helper lemmas: branch equations for the facade operations -/

lemma bool_eq_false {b : Bool} (h : ¬ b = true) : b = false := by
  cases b
  · rfl
  · exact absurd rfl h

lemma remove_task_present {st : MgrState} {id : String}
    (h : dictContains st.scheduled_tasks id = true) :
    remove_task st id =
      (⟨dictErase st.scheduled_tasks id, st.task_queue⟩,
       [Action.removePending id true,
        Action.save (save_tasks (dictErase st.scheduled_tasks id)) false], true) := by
  unfold remove_task
  rw [if_pos h]

lemma remove_task_absent {st : MgrState} {id : String}
    (h : dictContains st.scheduled_tasks id = false) :
    remove_task st id = (st, [], false) := by
  unfold remove_task
  rw [if_neg]
  simp [h]

lemma store_remove_present {tasks : Pending} {id : String}
    (h : dictContains tasks id = true) :
    store_remove tasks id =
      (dictErase tasks id,
       [Action.removePending id false,
        Action.save (save_tasks (dictErase tasks id)) false], true) := by
  unfold store_remove
  rw [if_pos h]

lemma store_remove_absent {tasks : Pending} {id : String}
    (h : dictContains tasks id = false) :
    store_remove tasks id = (tasks, [], false) := by
  unfold store_remove
  rw [if_neg]
  simp [h]

lemma add_task_parsed {st : MgrState} {task : Task} {ts : Int}
    (h : parseTimestamp task.implementation_time = some ts) :
    add_task st task =
      ({ scheduled_tasks := dictInsert st.scheduled_tasks task.change_number task,
         task_queue := st.task_queue ++ [(ts, task.change_number)] },
       [Action.save (save_tasks (dictInsert st.scheduled_tasks task.change_number task)) false,
        Action.oracleCheck task.change_number false],
       .ok task) := by
  unfold add_task
  rw [h]

lemma queue_lower_bound (q : List (Int × String)) : ∃ c : Int, ∀ e ∈ q, c ≤ e.1 := by
  cases hq : queueMin q with
  | none =>
    refine ⟨0, fun e he => ?_⟩
    cases q with
    | nil => simp at he
    | cons a as => simp [queueMin] at hq
  | some m =>
    exact ⟨m.1, fun e he => fst_le_of_not_entryLt (queueMin_not_lt hq e he)⟩

lemma execKeys_sublist (evs : List SchedEvent) :
    ((execEvents evs).map Prod.fst).Sublist (popKeys evs) := by
  induction evs with
  | nil => simp [execEvents, popKeys]
  | cons ev evs ih =>
    cases ev with
    | slept =>
      rw [execEvents_cons_slept, popKeys_cons_slept]
      exact ih
    | stale t id =>
      rw [execEvents_cons_stale, popKeys_cons_stale]
      exact List.Sublist.cons _ ih
    | skipped t id =>
      rw [execEvents_cons_skipped, popKeys_cons_skipped]
      exact List.Sublist.cons _ ih
    | executed t id task =>
      rw [execEvents_cons_executed, popKeys_cons_executed, List.map_cons]
      exact List.Sublist.cons₂ _ ih

end Sc3

namespace Sc3

/-! ## Claim theorems -/

/-- Claim C6: a call to `add_task` whose due-time string does not parse in the
expected `"%Y-%m-%d %H:%M:%S"` format fails synchronously with a `ValueError`
to the caller, and performs no mutation: the Pending Set and Due-Time Queue are
returned exactly as they were, and no persistence write (and no other outbound
effect) is triggered, so the persisted snapshot is also untouched. -/
theorem c6_malformed_add_rejected_no_mutation (st : MgrState) (task : Task)
    (h : parseTimestamp task.implementation_time = none) :
    (add_task st task).1 = st ∧
    (add_task st task).2.1 = [] ∧
    (add_task st task).2.2 = .error ("Invalid datetime format: " ++ task.implementation_time
      ++ ". Use YYYY-MM-DD HH:MM:SS") := by
  unfold add_task
  rw [h]
  exact ⟨rfl, rfl, rfl⟩

/-- Witness for C6 at the concrete malformed due time "mid May at ten". -/
theorem c6_malformed_add_rejected_no_mutation_witness :
    parseTimestamp taskBad.implementation_time = none ∧
    (add_task stA taskBad).1 = stA ∧ (add_task stA taskBad).2.1 = [] :=
  ⟨by decide, (c6_malformed_add_rejected_no_mutation stA taskBad (by decide)).1,
   (c6_malformed_add_rejected_no_mutation stA taskBad (by decide)).2.1⟩

/-- Claim C7: `remove_task` returns `True` exactly when the id is in the
Pending Set immediately before the call, deletes exactly that entry, and never
touches the Due-Time Queue; a second removal of the same id is a no-op that
returns `False`, deletes nothing, and triggers no persistence write.  The
services-variant `TaskStore.remove` returns presence the same way and its
second removal is the same no-op. -/
theorem c7_remove_semantics (st : MgrState) (id : String) :
    ((remove_task st id).2.2 = dictContains st.scheduled_tasks id) ∧
    ((remove_task st id).1.task_queue = st.task_queue) ∧
    ((remove_task st id).1.scheduled_tasks =
      if dictContains st.scheduled_tasks id then dictErase st.scheduled_tasks id
      else st.scheduled_tasks) ∧
    (remove_task (remove_task st id).1 id = ((remove_task st id).1, [], false)) ∧
    (∀ tasks : Pending, (store_remove tasks id).2.2 = dictContains tasks id ∧
      store_remove (store_remove tasks id).1 id = ((store_remove tasks id).1, [], false)) := by
  have hstore : ∀ tasks : Pending, (store_remove tasks id).2.2 = dictContains tasks id ∧
      store_remove (store_remove tasks id).1 id = ((store_remove tasks id).1, [], false) := by
    intro tasks
    by_cases hc : dictContains tasks id = true
    · rw [store_remove_present hc]
      exact ⟨hc.symm, store_remove_absent (dictContains_erase_self _ _)⟩
    · rw [store_remove_absent (bool_eq_false hc)]
      exact ⟨(bool_eq_false hc).symm, store_remove_absent (bool_eq_false hc)⟩
  by_cases hc : dictContains st.scheduled_tasks id = true
  · rw [remove_task_present hc]
    refine ⟨hc.symm, rfl, ?_, ?_, hstore⟩
    · rw [if_pos hc]
    · exact remove_task_absent (dictContains_erase_self _ _)
  · rw [remove_task_absent (bool_eq_false hc)]
    refine ⟨(bool_eq_false hc).symm, rfl, ?_, ?_, hstore⟩
    · rw [if_neg]
      simp [bool_eq_false hc]
    · exact remove_task_absent (bool_eq_false hc)

/-- Claim C10: `save_tasks` computes the sequence of records to persist
synchronously at call time (`list(tasks.values())`), before spawning the
background writer, and never raises (it is a total function of the dict).  In
the trace of two successive `add_task` calls, the first persistence payload is
exactly the Pending Set as of the first mutation — one record shorter than the
second payload — so a later concurrent mutation cannot change what the first
write puts on disk. -/
theorem c10_save_snapshot_at_call_time (st : MgrState) (t1 t2 : Task)
    (h1 : (parseTimestamp t1.implementation_time).isSome = true)
    (h2 : (parseTimestamp t2.implementation_time).isSome = true)
    (hfresh : dictContains (add_task st t1).1.scheduled_tasks t2.change_number = false) :
    ((add_task st t1).2.1 ++ (add_task (add_task st t1).1 t2).2.1 =
      [Action.save (save_tasks (add_task st t1).1.scheduled_tasks) false,
       Action.oracleCheck t1.change_number false,
       Action.save (save_tasks (add_task (add_task st t1).1 t2).1.scheduled_tasks) false,
       Action.oracleCheck t2.change_number false]) ∧
    (save_tasks (add_task st t1).1.scheduled_tasks).length + 1 =
      (save_tasks (add_task (add_task st t1).1 t2).1.scheduled_tasks).length := by
  rcases hp1 : parseTimestamp t1.implementation_time with _ | ts1
  · rw [hp1] at h1
    exact absurd h1 (by simp)
  rcases hp2 : parseTimestamp t2.implementation_time with _ | ts2
  · rw [hp2] at h2
    exact absurd h2 (by simp)
  rw [add_task_parsed hp1] at hfresh ⊢
  rw [add_task_parsed hp2]
  refine ⟨rfl, ?_⟩
  simp only [save_tasks, dictValues, List.length_map]
  rw [dictInsert_length t2 hfresh]

/-- Witness for C10: two fresh adds from the empty state. -/
theorem c10_save_snapshot_at_call_time_witness :
    ((parseTimestamp taskA10.implementation_time).isSome = true ∧
     (parseTimestamp taskB11.implementation_time).isSome = true ∧
     dictContains (add_task ⟨[], []⟩ taskA10).1.scheduled_tasks taskB11.change_number = false) ∧
    (save_tasks (add_task ⟨[], []⟩ taskA10).1.scheduled_tasks).length + 1 =
      (save_tasks (add_task (add_task ⟨[], []⟩ taskA10).1 taskB11).1.scheduled_tasks).length :=
  ⟨⟨by decide, by decide, by decide⟩,
   (c10_save_snapshot_at_call_time ⟨[], []⟩ taskA10 taskB11 (by decide) (by decide)
     (by decide)).2⟩

end Sc3

namespace Sc3

/-- Claim C1 (code bug): after rescheduling id "A" from 10:00 to 12:00 by a
second `add_task`, the stale Due-Time Queue entry carrying the old 10:00 key is
NOT discarded by the pop-time lazy-deletion check (which only tests membership
of the id in the Pending Set, not that the popped key matches the current due
time): at `now` = the old due time the Scheduling Loop pops the stale entry,
finds "A" still pending, and dispatches the Executor — using the old due time,
two hours before the task's newest due time. -/
theorem c1_reschedule_executes_at_old_due_time :
    parseTimestamp taskA10.implementation_time = some due10 ∧
    parseTimestamp taskA12.implementation_time = some due12 ∧
    due10 < due12 ∧
    dictGet rescheduledState.scheduled_tasks "A" = some taskA12 ∧
    (due10, "A") ∈ rescheduledState.task_queue ∧
    (scheduler_iter oracleApproved due10 rescheduledState).2.2 =
      SchedEvent.executed due10 "A" taskA12 ∧
    Action.dispatchExec taskA12 true ∈
      (scheduler_iter oracleApproved due10 rescheduledState).2.1 :=
  ⟨by decide, by decide, by decide, by decide, by decide, by decide, by decide⟩

/-- Counterexample to C3 as stated: when the oracle answers "canceled" for a
due task, execution is skipped but the task is NOT retired — it remains in the
Pending Set (only its queue entry was consumed). -/
theorem c3_canceled_task_not_retired :
    (scheduler_iter oracleCanceled due10 stA).2.2 = SchedEvent.skipped due10 "A" ∧
    (scheduler_iter oracleCanceled due10 stA).1.scheduled_tasks = [("A", taskA10)] ∧
    dictGet (scheduler_iter oracleCanceled due10 stA).1.scheduled_tasks "A" = some taskA10 :=
  ⟨by decide, by decide, by decide⟩

/-- Claim C3 (amended): when the Scheduling Loop evaluates a due task present
in the Pending Set, execution is skipped if and only if the Status Oracle
returns exactly "canceled"; every other outcome — any other status string or a
`none` from an oracle failure — is treated identically as "not canceled"
(fail-open) and the task is removed and handed to the Executor.  However, in
the canceled branch the task is NOT retired from the Pending Set: only its
queue entry is consumed, and the entry remains until a sweep eviction or an
explicit remove. -/
theorem c3_skip_iff_canceled (o : String → Option String) (now t : Int) (id : String)
    (task : Task) (st : MgrState)
    (hq : queueMin st.task_queue = some (t, id)) (ht : t ≤ now)
    (hg : dictGet st.scheduled_tasks id = some task) :
    ((scheduler_iter o now st).2.2 = .skipped t id ↔ o id = some "canceled") ∧
    (o id = some "canceled" →
      (scheduler_iter o now st).1.scheduled_tasks = st.scheduled_tasks ∧
      (scheduler_iter o now st).2.1 = [Action.oracleCheck id true]) ∧
    (o id ≠ some "canceled" →
      (scheduler_iter o now st).2.2 = .executed t id task ∧
      (scheduler_iter o now st).1.scheduled_tasks = dictErase st.scheduled_tasks id ∧
      Action.dispatchExec task true ∈ (scheduler_iter o now st).2.1) := by
  by_cases hc : o id = some "canceled"
  · have hs : scheduler_iter o now st =
        (⟨st.scheduled_tasks, eraseEntry st.task_queue (t, id)⟩,
         [Action.oracleCheck id true], .skipped t id) := by
      simp only [scheduler_iter, hq, if_pos ht, hg, if_pos hc]
    rw [hs]
    exact ⟨⟨fun _ => hc, fun _ => rfl⟩, fun _ => ⟨rfl, rfl⟩, fun hcon => absurd hc hcon⟩
  · have hs : scheduler_iter o now st =
        (⟨dictErase st.scheduled_tasks id, eraseEntry st.task_queue (t, id)⟩,
         [Action.oracleCheck id true, Action.removePending id true,
          Action.save (save_tasks (dictErase st.scheduled_tasks id)) true,
          Action.dispatchExec task true],
         .executed t id task) := by
      simp only [scheduler_iter, hq, if_pos ht, hg, if_neg hc]
    rw [hs]
    exact ⟨⟨fun he => absurd he (by simp), fun he => absurd he hc⟩, fun he => absurd he hc,
      fun _ => ⟨rfl, rfl, by simp⟩⟩

/-- Witness for C3 at a concrete due, pending, canceled task. -/
theorem c3_skip_iff_canceled_witness :
    (queueMin stA.task_queue = some (due10, "A") ∧ due10 ≤ due10 ∧
      dictGet stA.scheduled_tasks "A" = some taskA10) ∧
    ((scheduler_iter oracleCanceled due10 stA).2.2 = .skipped due10 "A" ↔
      oracleCanceled "A" = some "canceled") :=
  ⟨⟨by decide, le_refl _, by decide⟩,
   (c3_skip_iff_canceled oracleCanceled due10 due10 "A" taskA10 stA (by decide)
     (le_refl _) (by decide)).1⟩

/-- Counterexample to C8 as stated: in `TaskManager._scheduler_loop` the
pre-execution Status Oracle call, the persistence-write trigger, and the
Executor dispatch are all performed while `self.file_lock` is held (they sit
inside the `with self.file_lock` block). -/
theorem c8_lock_held_across_oracle_call :
    Action.oracleCheck "A" true ∈ (scheduler_iter oracleApproved due10 stA).2.1 ∧
    Action.save (save_tasks (dictErase stA.scheduled_tasks "A")) true ∈
      (scheduler_iter oracleApproved due10 stA).2.1 ∧
    Action.dispatchExec taskA10 true ∈ (scheduler_iter oracleApproved due10 stA).2.1 :=
  ⟨by decide, by decide, by decide⟩

/-- Claim C8 (amended): the lock discipline the code actually implements.
Every outbound effect of a Scheduling Loop iteration — including the
pre-execution status check, the persistence trigger, and the Executor
dispatch — is performed with the mutual-exclusion domain held; in a sweep
cycle the per-id status checks are performed outside the lock, while the
batch removals and the single persistence trigger are performed inside it. -/
theorem c8_lock_discipline :
    (∀ (o : String → Option String) (n : Int) (st : MgrState),
      ∀ a ∈ (scheduler_iter o n st).2.1, a.lockFlag = true) ∧
    (∀ (o : String → Option String) (st : MgrState),
      ∀ a ∈ (status_checker_sweep o st).2,
        (∃ id, a = Action.oracleCheck id false) ∨
        (∃ id, a = Action.removePending id true) ∨
        (∃ v, a = Action.save v true)) ∧
    (∀ (st : MgrState) (task : Task), ∀ a ∈ (add_task st task).2.1, a.lockFlag = false) ∧
    (∀ (st : MgrState) (id : String),
      (remove_task st id).2.1 = [] ∨
      (remove_task st id).2.1 =
        [Action.removePending id true,
         Action.save (save_tasks (dictErase st.scheduled_tasks id)) false]) := by
  refine ⟨?_, ?_, ?_, ?_⟩
  · intro o n st a ha
    rcases scheduler_iter_spec o n st with hs |
      ⟨t, j, hq, ht, ⟨hg, hs⟩ | ⟨task, hg, ⟨hc, hs⟩ | ⟨hc, hs⟩⟩⟩
    · rw [hs] at ha
      simp at ha
    · rw [hs] at ha
      simp at ha
    · rw [hs] at ha
      rcases List.mem_singleton.mp ha with rfl
      rfl
    · rw [hs] at ha
      simp only [List.mem_cons, List.not_mem_nil, or_false] at ha
      rcases ha with rfl | rfl | rfl | rfl <;> rfl
  · intro o st a ha
    rw [status_checker_sweep_trace] at ha
    rcases List.mem_append.mp ha with ha | ha
    · rcases List.mem_append.mp ha with ha | ha
      · obtain ⟨j, _, hj⟩ := List.mem_map.mp ha
        exact Or.inl ⟨j, hj.symm⟩
      · obtain ⟨j, _, hj⟩ := sweepRemove_acts _ _ a ha
        exact Or.inr (Or.inl ⟨j, hj⟩)
    · split at ha
      · simp at ha
      · rcases List.mem_singleton.mp ha with rfl
        exact Or.inr (Or.inr ⟨_, rfl⟩)
  · intro st task a ha
    rcases hp : parseTimestamp task.implementation_time with _ | ts
    · have he : (add_task st task).2.1 = [] := by
        unfold add_task
        rw [hp]
      rw [he] at ha
      simp at ha
    · rw [add_task_parsed hp] at ha
      simp only [List.mem_cons, List.not_mem_nil, or_false] at ha
      rcases ha with rfl | rfl <;> rfl
  · intro st id
    by_cases hc : dictContains st.scheduled_tasks id = true
    · exact Or.inr (by rw [remove_task_present hc])
    · exact Or.inl (by rw [remove_task_absent (bool_eq_false hc)])

end Sc3

namespace Sc3

/-- Counterexample to C5 as stated: in the services-variant sweep
(`StatusChecker._checker_loop` + `TaskStore.remove`), with two snapshotted ids
both reporting "canceled", each eviction happens immediately after its own
status check and triggers its own persistence write — two writes in one sweep
cycle, with the first write issued before the sweep has finished checking. -/
theorem c5_services_sweep_write_per_eviction :
    (sc_checker_sweep oracleCanceled stAB.scheduled_tasks).2 =
      [Action.oracleCheck "A" false, Action.removePending "A" false,
       Action.save [taskB11] false,
       Action.oracleCheck "B" false, Action.removePending "B" false,
       Action.save [] false] ∧
    saveCount (sc_checker_sweep oracleCanceled stAB.scheduled_tasks).2 = 2 :=
  ⟨by decide, by decide⟩

/-- Claim C5 (amended, for `TaskManager._status_checker_loop`): one sweep cycle
first emits a Status Oracle check for every snapshotted id, then the batch of
Pending-Set removals for exactly the ids whose status is "canceled", then — only
when the batch is nonempty — exactly one persistence write for the whole batch;
the trace decomposes into those three phases in that order, the number of
persistence writes in the cycle is 1 when anything was collected and 0
otherwise, the post-sweep Pending Set drops precisely the canceled ids, and the
Due-Time Queue is untouched.  (The services-variant sweep instead performs one
write per evicted id.) -/
theorem c5_sweep_batched_single_write (o : String → Option String) (st : MgrState) :
    (saveCount (status_checker_sweep o st).2 =
      if changesToRemove o st.scheduled_tasks = [] then 0 else 1) ∧
    (∃ l1 l2 l3, (status_checker_sweep o st).2 = l1 ++ l2 ++ l3 ∧
      (∀ a ∈ l1, ∃ id, id ∈ dictKeys st.scheduled_tasks ∧ a = Action.oracleCheck id false) ∧
      (∀ a ∈ l2, ∃ id, o id = some "canceled" ∧ a = Action.removePending id true) ∧
      (∀ a ∈ l3, ∃ v, a = Action.save v true) ∧ l3.length ≤ 1) ∧
    (∀ id, dictGet (status_checker_sweep o st).1.scheduled_tasks id =
      if o id = some "canceled" then none else dictGet st.scheduled_tasks id) ∧
    (status_checker_sweep o st).1.task_queue = st.task_queue := by
  refine ⟨?_, ?_, status_checker_sweep_pending o st, status_checker_sweep_queue o st⟩
  · rw [status_checker_sweep_trace, saveCount_append, saveCount_append]
    have z1 : saveCount ((dictKeys st.scheduled_tasks).map
        (fun id => Action.oracleCheck id false)) = 0 := by
      apply saveCount_eq_zero
      intro a ha
      obtain ⟨j, _, hj⟩ := List.mem_map.mp ha
      rw [← hj]
      rfl
    have z2 : saveCount (sweepRemove (changesToRemove o st.scheduled_tasks)
        st.scheduled_tasks).2 = 0 := by
      apply saveCount_eq_zero
      intro a ha
      obtain ⟨j, _, hj⟩ := sweepRemove_acts _ _ a ha
      rw [hj]
      rfl
    rw [z1, z2]
    cases hl : changesToRemove o st.scheduled_tasks with
    | nil => simp [saveCount]
    | cons x xs => simp [saveCount, List.filter, isSave, List.isEmpty]
  · refine ⟨_, _, _, status_checker_sweep_trace o st, ?_, ?_, ?_, ?_⟩
    · intro a ha
      obtain ⟨j, hjmem, hj⟩ := List.mem_map.mp ha
      exact ⟨j, hjmem, hj.symm⟩
    · intro a ha
      obtain ⟨j, hjmem, hj⟩ := sweepRemove_acts _ _ a ha
      have hcanc : o j = some "canceled" := by
        unfold changesToRemove at hjmem
        have := (List.mem_filter.mp hjmem).2
        simpa using this
      exact ⟨j, hcanc, hj⟩
    · intro a ha
      split at ha
      · simp at ha
      · rcases List.mem_singleton.mp ha with rfl
        exact ⟨_, rfl⟩
    · split
      · simp
      · simp

/-- Counterexample to C2 as stated: in `TaskScheduler._scheduler_loop`
(`services/scheduler.py`, one of the two cited sources) the Executor thread for
a due, still-valid task is started BEFORE the task is removed from the task
store: the dispatch action precedes the removal in the iteration's trace. -/
theorem c2_services_dispatch_before_remove :
    (ts_scheduler_iter oracleApproved due11 tsStB).2.1 =
      [Action.oracleCheck "B" false, Action.dispatchExec taskB11 false,
       Action.removePending "B" false, Action.save [] false] ∧
    List.indexOf (Action.dispatchExec taskB11 false)
        (ts_scheduler_iter oracleApproved due11 tsStB).2.1 <
      List.indexOf (Action.removePending "B" false)
        (ts_scheduler_iter oracleApproved due11 tsStB).2.1 :=
  ⟨by decide, by decide⟩

/-- Claim C2 (amended, for `TaskManager._scheduler_loop`): across any run that
interleaves scheduler iterations, sweep cycles, and explicit removals (no
re-add), the Executor is dispatched at most once per task id; and whenever a
scheduler iteration dispatches a task, its trace is exactly oracle-check,
Pending-Set removal, persistence trigger, then the dispatch — so the entry is
removed from the Pending Set before the Executor dispatch begins.  (In the
`TaskScheduler` variant the dispatch is instead started before the store
removal.) -/
theorem c2_at_most_once_dispatch (steps : List EngineStep) (st : MgrState) (id : String)
    (hW : WellKeyed st.scheduled_tasks) :
    execCount id (engine_run steps st).2.1 ≤ 1 ∧
    (∀ (o : String → Option String) (n : Int) (task : Task) (l : Bool),
      Action.dispatchExec task l ∈ (scheduler_iter o n st).2.1 →
      (scheduler_iter o n st).2.1 =
        [Action.oracleCheck task.change_number true,
         Action.removePending task.change_number true,
         Action.save (save_tasks (dictErase st.scheduled_tasks task.change_number)) true,
         Action.dispatchExec task true]) := by
  refine ⟨engine_run_at_most_once steps st hW, ?_⟩
  intro o n task l hmem
  rcases scheduler_iter_spec o n st with hs |
    ⟨t, j, hq, ht, ⟨hg, hs⟩ | ⟨task2, hg, ⟨hc, hs⟩ | ⟨hc, hs⟩⟩⟩
  · rw [hs] at hmem
    simp at hmem
  · rw [hs] at hmem
    simp at hmem
  · rw [hs] at hmem
    rcases List.mem_singleton.mp hmem with h
    exact absurd h (by simp)
  · rw [hs] at hmem ⊢
    simp only [List.mem_cons, List.not_mem_nil, or_false] at hmem
    rcases hmem with h | h | h | h
    · exact absurd h (by simp)
    · exact absurd h (by simp)
    · exact absurd h (by simp)
    · have hinj : task = task2 ∧ l = true := by simpa using h
      obtain ⟨rfl, -⟩ := hinj
      have hj2 : task.change_number = j := hW _ (dictGet_mem hg)
      rw [hj2]

/-- Witness for C2: a two-iteration run over two pending tasks. -/
theorem c2_at_most_once_dispatch_witness :
    WellKeyed stAB.scheduled_tasks ∧
    execCount "A" (engine_run [EngineStep.sched oracleApproved due10,
      EngineStep.sched oracleApproved due11] stAB).2.1 ≤ 1 :=
  ⟨by decide,
   (c2_at_most_once_dispatch [EngineStep.sched oracleApproved due10,
     EngineStep.sched oracleApproved due11] stAB "A" (by decide)).1⟩

/-- Claim C4: across any run of the engine (scheduler iterations, sweeps,
removals) from a state whose queue keys match the pending tasks' parsed due
times (as after inserting a set of tasks with distinct ids), the keys of the
popped queue entries — and hence the due times of the dispatched tasks — form a
non-decreasing sequence, and each dispatched task's `implementation_time`
parses to exactly the key it was popped at; moreover `queueMin` yields an
element of the queue that is minimal first by due time and then by id
(deterministic tie-break). -/
theorem c4_due_order (steps : List EngineStep) (st : MgrState)
    (hK : KeysAccurate st) :
    List.Pairwise (fun a b => a ≤ b) (popKeys (engine_run steps st).2.2) ∧
    List.Pairwise (fun a b => a.1 ≤ b.1) (execEvents (engine_run steps st).2.2) ∧
    (∀ p ∈ execEvents (engine_run steps st).2.2,
      parseTimestamp p.2.2.implementation_time = some p.1) ∧
    (∀ m, queueMin st.task_queue = some m →
      m ∈ st.task_queue ∧ ∀ x ∈ st.task_queue, ¬ entryLt x m) := by
  obtain ⟨c, hlb⟩ := queue_lower_bound st.task_queue
  obtain ⟨h1, h2, h3⟩ := engine_run_pops steps st c hK hlb
  refine ⟨h2, ?_, h3, ?_⟩
  · have hsub := execKeys_sublist (engine_run steps st).2.2
    have hmap := List.Pairwise.sublist hsub h2
    exact List.pairwise_map.mp hmap
  · intro m hm
    exact ⟨queueMin_mem hm, queueMin_not_lt hm⟩

/-- Witness for C4: a two-iteration run over two tasks with distinct due
times. -/
theorem c4_due_order_witness :
    KeysAccurate stAB ∧
    List.Pairwise (fun a b => a ≤ b) (popKeys (engine_run
      [EngineStep.sched oracleApproved due10, EngineStep.sched oracleApproved due11]
      stAB).2.2) :=
  ⟨by decide,
   (c4_due_order [EngineStep.sched oracleApproved due10,
     EngineStep.sched oracleApproved due11] stAB (by decide)).1⟩

/-- Claim C9: a record in `start()`'s initial task set whose
`implementation_time` fails to parse is kept in the Pending Set (visible to
`get_task`/`get_all_tasks`) but never entered into the Due-Time Queue, so no
run of the Scheduling Loop can ever pop, retire, or execute it: its entry
survives every scheduler iteration untouched and no scheduler event ever
concerns its id.  (It can still leave via `remove_task` or a sweep eviction.)
-/
theorem c9_unparseable_initial_task_stranded (initial : Pending) (id : String)
    (task : Task)
    (hnd : (dictKeys initial).Nodup)
    (hget : dictGet initial id = some task)
    (hbad : parseTimestamp task.implementation_time = none) :
    dictGet (start_init initial).scheduled_tasks id = some task ∧
    (∀ e ∈ (start_init initial).task_queue, e.2 ≠ id) ∧
    (∀ inputs : List ((String → Option String) × Int),
      dictGet (scheduler_run inputs (start_init initial)).1.scheduled_tasks id = some task ∧
      (∀ ev ∈ (scheduler_run inputs (start_init initial)).2.2,
        SchedEvent.touches id ev = false)) := by
  have hq : ∀ e ∈ (start_init initial).task_queue, e.2 ≠ id := by
    intro e he heid
    obtain ⟨kv, hkv, hp, he2⟩ := start_init_queue_mem he
    have hkey : kv.1 = id := by rw [← he2, heid]
    have hmem2 : (id, kv.2) ∈ initial := by
      have hkv2 : (kv.1, kv.2) ∈ initial := by simpa using hkv
      rwa [hkey] at hkv2
    have hgv := dictGet_of_mem_nodup hnd hmem2
    rw [hget] at hgv
    injection hgv with h3
    rw [← h3, hbad] at hp
    exact Option.noConfusion hp
  refine ⟨hget, hq, ?_⟩
  intro inputs
  obtain ⟨h1, h2⟩ := scheduler_run_avoid inputs (start_init initial) id hq
  exact ⟨by rw [h1]; exact hget, h2⟩

/-- Witness for C9: initial set with one unparseable record. -/
theorem c9_unparseable_initial_task_stranded_witness :
    ((dictKeys initXA).Nodup ∧ dictGet initXA "X" = some taskBad ∧
      parseTimestamp taskBad.implementation_time = none) ∧
    dictGet (start_init initXA).scheduled_tasks "X" = some taskBad :=
  ⟨⟨by decide, by decide, by decide⟩,
   (c9_unparseable_initial_task_stranded initXA "X" taskBad (by decide) (by decide)
     (by decide)).1⟩

end Sc3
